import Mathlib

set_option autoImplicit false

/-!
# Verification of `scripts/generate_docs.js`

A shallow embedding of the documentation-generation pipeline of the
repository.  JavaScript objects are modelled as Lean structures or
inductives; the insertion-ordered string-keyed object used by the grouper
is modelled as an association list; a thrown exception is modelled as
`Except.error ()`; `null`/absent values are modelled as `none`.  Strings
are ASCII in practice, so JavaScript's code-unit operations (`indexOf`,
`substring`) are modelled with character-list operations on `String.data`.
-/

namespace GenerateDocs

/--
A documented parameter as emitted by the parsing engine
(an element of a raw record's `params` array).  `name` may be dotted
(`options.year`); `isProperty` is the flag set when a parameter is
reparented (falsy/absent on raw input is modelled as `false`); `props` is
the nested child list (absent modelled as `none`); `optional` is the
optionality flag; `descr` stands for the remaining metadata fields that
the tree builder carries through untouched.
-/
inductive Param : Type where
  | mk : (name : String) → (optional : Bool) → (isProperty : Bool) →
      (props : Option (List Param)) → (descr : String) → Param

def Param.name : Param → String
  | .mk n _ _ _ _ => n

def Param.optional : Param → Bool
  | .mk _ o _ _ _ => o

def Param.isProperty : Param → Bool
  | .mk _ _ ip _ _ => ip

def Param.props : Param → Option (List Param)
  | .mk _ _ _ pr _ => pr

def Param.descr : Param → String
  | .mk _ _ _ _ d => d

/-- `param.name = n; param.isProperty = b` — the two mutations performed on a
dotted parameter, leaving every other field unchanged. -/
def Param.setNameProp : Param → String → Bool → Param
  | .mk _ o _ pr d, n, ip => .mk n o ip pr d

/-- `parent.props = l` — the mutation performed on a parent, leaving every
other field unchanged. -/
def Param.setProps : Param → Option (List Param) → Param
  | .mk n o ip _ d, pr => .mk n o ip pr d

/-- The parent's current `props` list, an empty list when absent
(`parent.props = [param]` vs `parent.props.push(param)` both append to this). -/
def Param.getPropsD (p : Param) : List Param := p.props.getD []

/-- Index of the first occurrence of character `t` in a character list
(model of JavaScript `String.prototype.indexOf` for a single character;
`none` models the `-1` result). -/
def charIndexOf : List Char → Char → Option Nat
  | [], _ => none
  | c :: rest, t => if c = t then some 0 else (charIndexOf rest t).map (· + 1)

/-- `name.indexOf('.')`, with `none` for `-1`. -/
def dotIndex (s : String) : Option Nat := charIndexOf s.data '.'

/-- `s.substring(0, n)`. -/
def strTake (s : String) (n : Nat) : String := String.mk (s.data.take n)

/-- `s.substring(n)`. -/
def strDrop (s : String) (n : Nat) : String := String.mk (s.data.drop n)

/--
The `paramIndices` lookup object: built by `result[name] = index` over the
list in order, so a duplicated name maps to its last index; lookup of a key
that was never assigned yields `undefined`, modelled as `none`.
`lastIdxAux names key i` is the lookup over `names` whose first element has
index `i`.
-/
def lastIdxAux : List String → String → Nat → Option Nat
  | [], _, _ => none
  | n :: rest, key, i =>
    match lastIdxAux rest key (i + 1) with
    | some j => some j
    | none => if n = key then some i else none

def lastIndexOf (names : List String) (key : String) : Option Nat := lastIdxAux names key 0

/--
One iteration of the `.map` body of `paramsToTree`, acting on the mutable
array `arr` at position `i`.  `names` is the fixed list of original names
(from which `paramIndices` was built before the map started).  A dotted,
not-yet-property parameter is renamed to the part after the first dot,
marked as a property, and appended to its parent's `props` list; a missing
parent (`paramIndices` lookup yields `undefined`) makes the unguarded
`parent.props` access throw, modelled as `Except.error ()`.
-/
def treeStep (names : List String) (arr : List Param) (i : Nat) : Except Unit (List Param) :=
  match arr.get? i with
  | none => Except.ok arr
  | some p =>
    match dotIndex p.name, p.isProperty with
    | some d, false =>
      match lastIndexOf names (strTake p.name d) with
      | none => Except.error ()
      | some pj =>
        match (arr.set i (p.setNameProp (strDrop p.name (d + 1)) true)).get? pj with
        | none => Except.error ()
        | some parent =>
          Except.ok ((arr.set i (p.setNameProp (strDrop p.name (d + 1)) true)).set pj
            (parent.setProps (some (parent.getPropsD ++
              [p.setNameProp (strDrop p.name (d + 1)) true]))))
    | _, _ => Except.ok arr

/-- The `.map` pass of `paramsToTree`: process the positions in `idxs`
(left to right) over the array, threading the thrown-exception channel. -/
def treeLoop (names : List String) : List Nat → List Param → Except Unit (List Param)
  | [], arr => Except.ok arr
  | i :: rest, arr =>
    match treeStep names arr i with
    | Except.error e => Except.error e
    | Except.ok arr1 => treeLoop names rest arr1

/-- The map pass of `paramsToTree` over a (non-null) parameter list:
`paramIndices` is built from the original names, then every index is
processed in order. -/
def runTree (ps : List Param) : Except Unit (List Param) :=
  treeLoop (ps.map Param.name) (List.range ps.length) ps

/--
`paramsToTree(dirtyParams)`.  A null/absent list yields `null`; otherwise
the list is (deep-)copied, every dotted non-property parameter is
reparented, and parameters marked as properties are filtered out.  A thrown
exception (absent parent) is `Except.error ()`.
-/
def paramsToTree : Option (List Param) → Except Unit (Option (List Param))
  | none => Except.ok none
  | some ps => (runTree ps).map (fun arr => some (arr.filter (fun p => !p.isProperty)))

/-- Invariant of a processed array slot: a parameter that is not marked as
a property has a dot-free name. -/
def GoodParam (p : Param) : Prop := p.isProperty = false → dotIndex p.name = none

/-- A raw extracted record: one element of the JSON array that the parsing
engine emits for a file.  `params` is `none` when the record carries no
`params` field (a parameterless function). -/
structure RawDoc where
  name : String
  category : String
  summary : String
  params : Option (List Param)

/-- One usage snippet (a `title`/`code` pair). -/
structure UsageItem where
  title : String
  code : String

/-- The `usage` object: one snippet per module-loading convention. -/
structure Usage where
  commonjs : UsageItem
  umd : UsageItem
  es2015 : UsageItem

/-- Model of the external `lodash.snakeCase` restricted to the ASCII
camelCase identifiers the pipeline feeds it: each uppercase letter is
lowercased and preceded by an underscore (`addDays` ↦ `add_days`). -/
def snakeCase (s : String) : String :=
  String.mk (s.data.foldr (fun c acc => if c.isUpper then '_' :: c.toLower :: acc else c :: acc) [])

/-- `generateUsage(name)`. -/
def generateUsage (name : String) : Usage :=
  let fileName := snakeCase name
  { commonjs :=
      { title := "CommonJS"
        code := "var " ++ name ++ " = require(\x27date-fns/" ++ fileName ++ "\x27)" }
    umd :=
      { title := "UMD"
        code := "var " ++ name ++ " = dateFns." ++ name }
    es2015 :=
      { title := "ES 2015"
        code := "import " ++ name ++ " from \x27date-fns/" ++ fileName ++ "\x27" } }

/-- JavaScript `Array.prototype.join(sep)`: empty list gives the empty
string, otherwise the elements with `sep` between consecutive ones. -/
def joinSep (sep : String) : List String → String
  | [] => ""
  | x :: xs => xs.foldl (fun acc y => acc ++ sep ++ y) x

/--
`generateSyntaxString(name, args)`.  The unguarded `args.map(...)` throws
when `args` is `null` (modelled `Except.error ()`); otherwise each
top-level argument contributes its name, bracketed when optional, and the
result is `name(arg1, arg2, ...)`.  (The JS field this feeds is called
`syntax`; the model names it `signature`.)
-/
def generateSyntaxString (name : String) (args : Option (List Param)) : Except Unit String :=
  match args with
  | none => Except.error ()
  | some l =>
    Except.ok (name ++ "(" ++
      joinSep ", " (l.map (fun arg => if arg.optional then "[" ++ arg.name ++ "]" else arg.name))
      ++ ")")

/-- The assembled documentation entry (the object literal built inside
`generateDocsFromSource`); `signature` models the JS `syntax` field. -/
structure DocEntry where
  type : String
  urlId : String
  category : String
  title : String
  description : String
  content : RawDoc
  args : Option (List Param)
  usage : Usage
  usageTabs : List String
  signature : String

/-- The body of the `jsDocs.map(doc => ...)` in `generateDocsFromSource`:
assemble one raw record into a `DocEntry`, propagating a thrown exception. -/
def assembleDoc (doc : RawDoc) : Except Unit DocEntry :=
  match paramsToTree doc.params with
  | Except.error e => Except.error e
  | Except.ok args =>
    match generateSyntaxString doc.name args with
    | Except.error e => Except.error e
    | Except.ok sig =>
      Except.ok
        { type := "jsdoc"
          urlId := doc.name
          category := doc.category
          title := doc.name
          description := doc.summary
          content := doc
          args := args
          usage := generateUsage doc.name
          usageTabs := ["commonjs", "umd", "es2015"]
          signature := sig }

/-- The whole `jsDocs.map(...)`: assembling every record, where a thrown
exception anywhere aborts the map. -/
def assembleAll : List RawDoc → Except Unit (List DocEntry)
  | [] => Except.ok []
  | d :: rest =>
    match assembleDoc d with
    | Except.error e => Except.error e
    | Except.ok e => (assembleAll rest).map (fun es => e :: es)

/-- A static-document descriptor from the configuration (target category,
source path, display metadata). -/
structure StaticDocDesc where
  category : String
  path : String
  title : String

/-- A static document: its descriptor merged with the file content
(`Object.assign({content}, staticDoc)`). -/
structure StaticDoc where
  content : String
  category : String
  path : String
  title : String

/-- A value stored in the grouped mapping: either an assembled source
entry or an injected static document. -/
inductive Entry where
  | jsdoc (e : DocEntry)
  | markdown (s : StaticDoc)

def Entry.category : Entry → String
  | .jsdoc e => e.category
  | .markdown s => s.category

/-- Lookup in an insertion-ordered JS object (modelled as an association
list); an absent key yields `undefined`, modelled `none`. -/
def assocGet {α : Type} : List (String × α) → String → Option α
  | [], _ => none
  | (k, v) :: rest, key => if k = key then some v else assocGet rest key

/-- Assignment `obj[key] = v` on an insertion-ordered JS object: an
existing key keeps its position and gets the new value, a new key is
appended at the end. -/
def assocSet {α : Type} : List (String × α) → String → α → List (String × α)
  | [], key, v => [(key, v)]
  | (k, w) :: rest, key, v =>
    if k = key then (k, v) :: rest else (k, w) :: assocSet rest key v

/-- `buildGroupsTemplate(groups)`: every configured group name mapped to an
empty array, in configured order. -/
def buildGroupsTemplate (groups : List String) : List (String × List Entry) :=
  groups.foldl (fun acc g => assocSet acc g []) []

/-- One step of the `docs.reduce` in `groupDocs`:
`(acc[doc.category] = acc[doc.category] || []).push(doc)` — the current
list under the entry's category (a fresh empty one when the key is absent)
with the entry appended. -/
def groupStep (acc : List (String × List Entry)) (doc : Entry) : List (String × List Entry) :=
  assocSet acc doc.category ((assocGet acc doc.category).getD [] ++ [doc])

/-- `groupDocs(docs, groups)`. -/
def groupDocs (docs : List Entry) (groups : List String) : List (String × List Entry) :=
  docs.foldl groupStep (buildGroupsTemplate groups)

/-- `getListOfStaticDocs()`: read every configured static document
(`readFile` abstracts `fsp.readFile` together with the configured file
system) and merge descriptor and content; `Promise.all` preserves the
descriptor order and rejects when any read fails. -/
def getListOfStaticDocs (readFile : String → Except Unit String) :
    List StaticDocDesc → Except Unit (List StaticDoc)
  | [] => Except.ok []
  | d :: rest =>
    match readFile d.path with
    | Except.error e => Except.error e
    | Except.ok content =>
      (getListOfStaticDocs readFile rest).map
        (fun sds => { content := content, category := d.category, path := d.path, title := d.title } :: sds)

/-- The `staticDocs.forEach` of `injectStaticDocsToDocsObj`:
`docsFileObj[staticDoc.category].push(staticDoc)` — pushing onto the list
under the document's category, where an absent key makes the unguarded
`.push` on `undefined` throw (`Except.error ()`). -/
def injectStaticDocs : List StaticDoc → List (String × List Entry) → Except Unit (List (String × List Entry))
  | [], obj => Except.ok obj
  | sd :: rest, obj =>
    match assocGet obj sd.category with
    | none => Except.error ()
    | some l => injectStaticDocs rest (assocSet obj sd.category (l ++ [Entry.markdown sd]))

/-- `injectStaticDocsToDocsObj(docsFileObj)`: read the static documents,
then push each into its category's list. -/
def injectStaticDocsToDocsObj (readFile : String → Except Unit String)
    (descs : List StaticDocDesc) (obj : List (String × List Entry)) :
    Except Unit (List (String × List Entry)) :=
  match getListOfStaticDocs readFile descs with
  | Except.error e => Except.error e
  | Except.ok sds => injectStaticDocs sds obj

/-- The outcome of one parsing-engine run on one file: either a stream
error or the records parsed from the accumulated stream data. -/
inductive ParseResult where
  | err (msg : String)
  | ok (docs : List RawDoc)

/-- The observable outcome of a whole pipeline run: either
`process.exit(code)` with no file written, or the grouped object written
to the output file. -/
inductive Outcome where
  | exited (code : Nat)
  | wrote (obj : List (String × List Entry))

/-- The sequential `listFiles().reduce` fold of `generateDocsFromSource`:
each file is parsed in order and its records are concatenated onto the
accumulator; a stream error for any file terminates the process
(`Except.error ()`), abandoning the rest. -/
def extractAll (parse : String → ParseResult) : List String → Except Unit (List RawDoc)
  | [] => Except.ok []
  | f :: rest =>
    match parse f with
    | .err _ => Except.error ()
    | .ok docs => (extractAll parse rest).map (fun acc => docs ++ acc)

/-- The whole pipeline
`generateDocsFromSource().then(generatedDocsObj).then(injectStaticDocsToDocsObj).then(writeDocsFile).catch(reportErrors)`:
any failure (a stream error exiting directly, or a thrown exception
reaching `reportErrors`) ends in `process.exit(1)` with nothing written;
otherwise the grouped object is written. -/
def runPipeline (parse : String → ParseResult) (files : List String) (groups : List String)
    (readFile : String → Except Unit String) (descs : List StaticDocDesc) : Outcome :=
  match extractAll parse files with
  | Except.error _ => Outcome.exited 1
  | Except.ok raws =>
    match assembleAll raws with
    | Except.error _ => Outcome.exited 1
    | Except.ok docs =>
      match injectStaticDocsToDocsObj readFile descs (groupDocs (docs.map Entry.jsdoc) groups) with
      | Except.error _ => Outcome.exited 1
      | Except.ok obj => Outcome.wrote obj

/-- The specification's comma-join, written from the spec's words
("a parenthesized, comma-joined list"): the empty list is empty, a
singleton is itself, and otherwise the head is followed by a comma-space
and the join of the tail.  Used only to state the refinement of
`generateSyntaxString`. -/
def specCommaJoin : List String → String
  | [] => ""
  | [x] => x
  | x :: y :: xs => x ++ ", " ++ specCommaJoin (y :: xs)

/-- The specification's syntax string, written from the spec's words: "the
entry name followed by a parenthesized, comma-joined parameter list where
optional parameters are wrapped in square brackets, using the top-level
parameter tree (not recursing into `props`)". -/
def specSignature (name : String) (ps : List Param) : String :=
  name ++ "(" ++
    specCommaJoin (ps.map (fun p => if p.optional then "[" ++ p.name ++ "]" else p.name)) ++ ")"

/-! ## Sample data used by the concrete witnesses and counterexamples -/

/-- A raw record with no `params` field. -/
def sampleRawNoParams : RawDoc :=
  { name := "isLeapYear", category := "Year Helpers", summary := "Is leap year?", params := none }

/-- A raw record behind the sample entry. -/
def sampleRaw : RawDoc :=
  { name := "toDate", category := "Misc", summary := "Converts the argument.",
    params := some [] }

/-- A concrete assembled entry of category `"Misc"`. -/
def sampleEntry : Entry :=
  Entry.jsdoc
    { type := "jsdoc"
      urlId := "toDate"
      category := "Misc"
      title := "toDate"
      description := "Converts the argument."
      content := sampleRaw
      args := some []
      usage := generateUsage "toDate"
      usageTabs := ["commonjs", "umd", "es2015"]
      signature := "toDate()" }

/-- A concrete static document of category `"Misc"`. -/
def sampleStatic : StaticDoc :=
  { content := "Getting started.", category := "Misc", path := "docs/getting_started.md",
    title := "Getting Started" }

/-- A dotted parameter whose parent (`options`) is absent from its list. -/
def orphan : Param := Param.mk "options.year" false false none "the year"

/-- The same dotted parameter, but already marked as a property. -/
def orphanMarked : Param := Param.mk "options.year" false true none "the year"

/-- Concrete parameters for the idempotence witness. -/
def pOptions : Param := Param.mk "options" true false none "the options"

def pYear : Param := Param.mk "options.year" true false none "the year"

/-- The tree built from `[pOptions, pYear]`: `options` carrying `year`
under `props`. -/
def pOptionsOut : Param :=
  Param.mk "options" true false (some [Param.mk "year" true true none "the year"]) "the options"

/-! ## Field-access simp lemmas -/

@[simp] theorem Param.name_mk (n : String) (o ip : Bool) (pr : Option (List Param)) (d : String) :
    (Param.mk n o ip pr d).name = n := rfl

@[simp] theorem Param.optional_mk (n : String) (o ip : Bool) (pr : Option (List Param)) (d : String) :
    (Param.mk n o ip pr d).optional = o := rfl

@[simp] theorem Param.isProperty_mk (n : String) (o ip : Bool) (pr : Option (List Param)) (d : String) :
    (Param.mk n o ip pr d).isProperty = ip := rfl

@[simp] theorem Param.props_mk (n : String) (o ip : Bool) (pr : Option (List Param)) (d : String) :
    (Param.mk n o ip pr d).props = pr := rfl

@[simp] theorem Param.descr_mk (n : String) (o ip : Bool) (pr : Option (List Param)) (d : String) :
    (Param.mk n o ip pr d).descr = d := rfl

@[simp] theorem Param.name_setNameProp (p : Param) (n : String) (b : Bool) :
    (p.setNameProp n b).name = n := by cases p; rfl

@[simp] theorem Param.isProperty_setNameProp (p : Param) (n : String) (b : Bool) :
    (p.setNameProp n b).isProperty = b := by cases p; rfl

@[simp] theorem Param.optional_setNameProp (p : Param) (n : String) (b : Bool) :
    (p.setNameProp n b).optional = p.optional := by cases p; rfl

@[simp] theorem Param.props_setNameProp (p : Param) (n : String) (b : Bool) :
    (p.setNameProp n b).props = p.props := by cases p; rfl

@[simp] theorem Param.descr_setNameProp (p : Param) (n : String) (b : Bool) :
    (p.setNameProp n b).descr = p.descr := by cases p; rfl

@[simp] theorem Param.name_setProps (p : Param) (pr : Option (List Param)) :
    (p.setProps pr).name = p.name := by cases p; rfl

@[simp] theorem Param.isProperty_setProps (p : Param) (pr : Option (List Param)) :
    (p.setProps pr).isProperty = p.isProperty := by cases p; rfl

@[simp] theorem Param.optional_setProps (p : Param) (pr : Option (List Param)) :
    (p.setProps pr).optional = p.optional := by cases p; rfl

@[simp] theorem Param.props_setProps (p : Param) (pr : Option (List Param)) :
    (p.setProps pr).props = pr := by cases p; rfl

@[simp] theorem Param.descr_setProps (p : Param) (pr : Option (List Param)) :
    (p.setProps pr).descr = p.descr := by cases p; rfl

@[simp] theorem Entry.category_jsdoc (e : DocEntry) :
    (Entry.jsdoc e).category = e.category := rfl

@[simp] theorem Entry.category_markdown (s : StaticDoc) :
    (Entry.markdown s).category = s.category := rfl

/-! ## String-splitting lemmas -/

theorem charIndexOf_eq_none (t : Char) :
    ∀ (l : List Char), t ∉ l → charIndexOf l t = none := by
  intro l
  induction l with
  | nil => intro _; rfl
  | cons c rest ih =>
    intro h
    have hc : ¬ c = t := fun hct => h (hct ▸ List.mem_cons_self c rest)
    unfold charIndexOf
    rw [if_neg hc, ih (fun hm => h (List.mem_cons_of_mem c hm))]
    rfl

theorem charIndexOf_append (t : Char) :
    ∀ (l1 l2 : List Char), charIndexOf l1 t = none →
    charIndexOf (l1 ++ t :: l2) t = some l1.length := by
  intro l1
  induction l1 with
  | nil => intro l2 _; simp [charIndexOf]
  | cons c rest ih =>
    intro l2 h
    simp only [charIndexOf] at h
    by_cases hc : c = t
    · rw [if_pos hc] at h
      exact absurd h (by simp)
    · rw [if_neg hc] at h
      have hrest : charIndexOf rest t = none := by
        rcases hr : charIndexOf rest t with - | j
        · rfl
        · rw [hr] at h
          exact absurd h (by simp)
      rw [List.cons_append]
      simp only [charIndexOf]
      rw [if_neg hc, ih l2 hrest]
      simp

theorem data_append_dot (pn suf : String) :
    (pn ++ "." ++ suf).data = pn.data ++ '.' :: suf.data := by
  have hdot : ("." : String).data = ['.'] := rfl
  rw [String.data_append, String.data_append, hdot]
  simp

theorem dotIndex_append (pn suf : String) (h : dotIndex pn = none) :
    dotIndex (pn ++ "." ++ suf) = some pn.data.length := by
  unfold dotIndex at h ⊢
  rw [data_append_dot]
  exact charIndexOf_append '.' pn.data suf.data h

theorem strTake_append (pn suf : String) :
    strTake (pn ++ "." ++ suf) pn.data.length = pn := by
  unfold strTake
  rw [data_append_dot]
  rw [show pn.data ++ '.' :: suf.data = pn.data ++ ('.' :: suf.data) from rfl,
    List.take_left pn.data ('.' :: suf.data)]

theorem strDrop_append (pn suf : String) :
    strDrop (pn ++ "." ++ suf) (pn.data.length + 1) = suf := by
  unfold strDrop
  rw [data_append_dot]
  rw [show pn.data ++ '.' :: suf.data = (pn.data ++ ['.']) ++ suf.data by simp]
  rw [show pn.data.length + 1 = (pn.data ++ ['.']).length by simp]
  rw [List.drop_left]

theorem ne_append_dot (pn suf : String) : pn ++ "." ++ suf ≠ pn := by
  intro h
  have hdata := congrArg String.data h
  rw [data_append_dot] at hdata
  have hlen := congrArg List.length hdata
  simp at hlen

/-! ## `paramIndices` lookup lemmas -/

theorem lastIdxAux_eq_none (key : String) :
    ∀ (names : List String), key ∉ names → ∀ i, lastIdxAux names key i = none := by
  intro names
  induction names with
  | nil => intro _ i; rfl
  | cons n rest ih =>
    intro h i
    have hn : ¬ n = key := fun hnk => h (hnk ▸ List.mem_cons_self n rest)
    unfold lastIdxAux
    rw [ih (fun hm => h (List.mem_cons_of_mem n hm)) (i + 1)]
    simp [hn]

theorem lastIndexOf_eq_none (names : List String) (key : String) (h : key ∉ names) :
    lastIndexOf names key = none := lastIdxAux_eq_none key names h 0

theorem lastIndexOf_pair (pn cn : String) (h : cn ≠ pn) :
    lastIndexOf [pn, cn] pn = some 0 := by
  simp [lastIndexOf, lastIdxAux, h]

/-! ## Structural lemmas about the tree-building pass -/

theorem treeStep_length {names : List String} {arr : List Param} {i : Nat} {arr2 : List Param}
    (h : treeStep names arr i = Except.ok arr2) : arr2.length = arr.length := by
  unfold treeStep at h
  split at h
  · cases h; rfl
  · split at h
    · split at h
      · exact absurd h (by simp)
      · split at h
        · exact absurd h (by simp)
        · cases h
          simp
    · cases h; rfl

theorem treeStep_get_self {names : List String} {arr : List Param} {i : Nat} {arr2 : List Param}
    (h : treeStep names arr i = Except.ok arr2) :
    ∀ p2, arr2.get? i = some p2 → GoodParam p2 := by
  unfold treeStep at h
  split at h
  · -- slot `i` is out of range and nothing changed
    rename_i hget
    cases h
    intro p2 hp2
    rw [hget] at hp2
    exact absurd hp2 (by simp)
  · rename_i p hget
    split at h
    · -- the dotted, not-yet-property branch
      rename_i d hdot hprop
      split at h
      · exact absurd h (by simp)
      · rename_i pj hpj
        split at h
        · exact absurd h (by simp)
        · rename_i parent hparent
          cases h
          intro p2 hp2
          have hilt : i < arr.length := by
            rcases Nat.lt_or_ge i arr.length with hlt | hge
            · exact hlt
            · rw [List.get?_eq_none.mpr hge] at hget
              exact absurd hget (by simp)
          by_cases hpji : pj = i
          · subst hpji
            have hA : (arr.set pj (p.setNameProp (strDrop p.name (d + 1)) true)).get? pj =
                some (p.setNameProp (strDrop p.name (d + 1)) true) :=
              List.get?_set_eq_of_lt _ (by simpa using hilt)
            rw [hA] at hparent
            have hparent' := (Option.some.injEq _ _).mp hparent
            rw [List.get?_set_eq_of_lt _ (by simpa using hilt)] at hp2
            have hp2' := (Option.some.injEq _ _).mp hp2
            intro hfalse
            rw [← hp2'] at hfalse
            simp [← hparent'] at hfalse
          · rw [List.get?_set_ne _ _ hpji,
              List.get?_set_eq_of_lt _ (by simpa using hilt)] at hp2
            have hp2' := (Option.some.injEq _ _).mp hp2
            intro hfalse
            rw [← hp2'] at hfalse
            simp at hfalse
    · -- fall-through: no dot, or already a property
      rename_i hmiss
      cases h
      intro p2 hp2
      rw [hget] at hp2
      have hp2' := (Option.some.injEq _ _).mp hp2
      rw [← hp2']
      intro hfalse
      rcases hd : dotIndex p.name with - | d
      · rfl
      · exact (hmiss d hd hfalse).elim

theorem treeStep_get_ne {names : List String} {arr : List Param} {i : Nat} {arr2 : List Param}
    (h : treeStep names arr i = Except.ok arr2) (j : Nat) (hj : j ≠ i) :
    arr2.get? j = arr.get? j ∨
    ∃ p pr, arr.get? j = some p ∧ arr2.get? j = some (p.setProps pr) := by
  unfold treeStep at h
  split at h
  · cases h; exact Or.inl rfl
  · rename_i p hget
    split at h
    · rename_i d hdot hprop
      split at h
      · exact absurd h (by simp)
      · rename_i pj hpj
        split at h
        · exact absurd h (by simp)
        · rename_i parent hparent
          cases h
          have hset1 : (arr.set i (p.setNameProp (strDrop p.name (d + 1)) true)).get? j =
              arr.get? j := List.get?_set_ne _ _ (fun hij => hj hij.symm)
          by_cases hpjj : pj = j
          · subst hpjj
            have hpjlt : pj < (arr.set i (p.setNameProp (strDrop p.name (d + 1)) true)).length := by
              rcases Nat.lt_or_ge pj (arr.set i (p.setNameProp (strDrop p.name (d + 1)) true)).length
                with hlt | hge
              · exact hlt
              · rw [List.get?_eq_none.mpr hge] at hparent
                exact absurd hparent (by simp)
            refine Or.inr ⟨parent,
              some (parent.getPropsD ++ [p.setNameProp (strDrop p.name (d + 1)) true]), ?_, ?_⟩
            · rw [← hset1]; exact hparent
            · exact List.get?_set_eq_of_lt _ hpjlt
          · refine Or.inl ?_
            rw [List.get?_set_ne _ _ hpjj]
            exact hset1
    · cases h; exact Or.inl rfl

theorem treeLoop_length {names : List String} :
    ∀ {idxs : List Nat} {arr arr' : List Param},
    treeLoop names idxs arr = Except.ok arr' → arr'.length = arr.length := by
  intro idxs
  induction idxs with
  | nil =>
    intro arr arr' h
    unfold treeLoop at h
    cases h; rfl
  | cons i rest ih =>
    intro arr arr' h
    unfold treeLoop at h
    split at h
    · exact absurd h (by simp)
    · rename_i arr1 hstep
      rw [ih h, treeStep_length hstep]

theorem treeLoop_good {names : List String} :
    ∀ (idxs : List Nat) (arr arr' : List Param),
    treeLoop names idxs arr = Except.ok arr' →
    ∀ (j : Nat) (p2 : Param), arr'.get? j = some p2 →
    (j ∈ idxs ∨ ∀ p, arr.get? j = some p → GoodParam p) → GoodParam p2 := by
  intro idxs
  induction idxs with
  | nil =>
    intro arr arr' h j p2 hp2 hj
    unfold treeLoop at h
    cases h
    rcases hj with hj | hj
    · exact absurd hj (List.not_mem_nil j)
    · exact hj p2 hp2
  | cons i rest ih =>
    intro arr arr' h j p2 hp2 hj
    unfold treeLoop at h
    split at h
    · exact absurd h (by simp)
    · rename_i arr1 hstep
      refine ih arr1 arr' h j p2 hp2 ?_
      rcases hj with hj | hj
      · rcases List.mem_cons.mp hj with hji | hjr
        · subst hji
          exact Or.inr (fun p1 hp1 => treeStep_get_self hstep p1 hp1)
        · exact Or.inl hjr
      · by_cases hji : j = i
        · subst hji
          exact Or.inr (fun p1 hp1 => treeStep_get_self hstep p1 hp1)
        · refine Or.inr (fun p1 hp1 => ?_)
          rcases treeStep_get_ne hstep j hji with heq | ⟨p, pr, hp, hp2'⟩
          · rw [heq] at hp1
            exact hj p1 hp1
          · rw [hp2'] at hp1
            have hp1' := (Option.some.injEq _ _).mp hp1
            subst hp1'
            have hgood := hj p hp
            intro hfalse
            rw [Param.isProperty_setProps] at hfalse
            rw [Param.name_setProps]
            exact hgood hfalse

theorem runTree_good {ps arr' : List Param} (h : runTree ps = Except.ok arr') :
    ∀ p ∈ arr', GoodParam p := by
  intro p hp
  obtain ⟨j, hj⟩ := List.mem_iff_get?.mp hp
  have hlen : arr'.length = ps.length := treeLoop_length h
  have hjlt : j < ps.length := by
    rcases Nat.lt_or_ge j arr'.length with hlt | hge
    · rw [hlen] at hlt; exact hlt
    · rw [List.get?_eq_none.mpr hge] at hj
      exact absurd hj (by simp)
  exact treeLoop_good _ ps arr' h j p hj (Or.inl (List.mem_range.mpr hjlt))

theorem treeStep_id (names : List String) (arr : List Param)
    (hgood : ∀ p ∈ arr, dotIndex p.name = none) (i : Nat) :
    treeStep names arr i = Except.ok arr := by
  rcases hget : arr.get? i with - | p
  · unfold treeStep
    simp only [hget]
  · have hd := hgood p (List.get?_mem hget)
    cases hb : p.isProperty
    · unfold treeStep
      simp only [hget, hd, hb]
    · unfold treeStep
      simp only [hget, hd, hb]

theorem treeLoop_id (names : List String) (arr : List Param)
    (hgood : ∀ p ∈ arr, dotIndex p.name = none) :
    ∀ idxs, treeLoop names idxs arr = Except.ok arr := by
  intro idxs
  induction idxs with
  | nil => rfl
  | cons i rest ih =>
    unfold treeLoop
    rw [treeStep_id names arr hgood i]
    exact ih

theorem treeLoop_error (names : List String) :
    ∀ (idxs : List Nat) (arr : List Param),
    (∃ k ∈ idxs, ∃ p d, arr.get? k = some p ∧ p.isProperty = false ∧
      dotIndex p.name = some d ∧ lastIndexOf names (strTake p.name d) = none) →
    treeLoop names idxs arr = Except.error () := by
  intro idxs
  induction idxs with
  | nil =>
    rintro arr ⟨k, hk, -⟩
    exact absurd hk (List.not_mem_nil k)
  | cons i rest ih =>
    rintro arr ⟨k, hk, p, d, hget, hprop, hdot, hmiss⟩
    unfold treeLoop
    rcases hstep : treeStep names arr i with e | arr1
    · cases e; rfl
    · by_cases hki : k = i
      · exfalso
        subst hki
        unfold treeStep at hstep
        rw [hget] at hstep
        simp only [hdot, hprop, hmiss] at hstep
        exact Except.noConfusion hstep
      · have hkr : k ∈ rest := by
          rcases List.mem_cons.mp hk with h1 | h1
          · exact absurd h1 hki
          · exact h1
        rcases treeStep_get_ne hstep k hki with heq | ⟨q, pr, hq, hq2⟩
        · exact ih arr1 ⟨k, hkr, p, d, by rw [heq]; exact hget, hprop, hdot, hmiss⟩
        · have hqp : q = p := by
            rw [hget] at hq
            exact ((Option.some.injEq _ _).mp hq).symm
          subst hqp
          exact ih arr1 ⟨k, hkr, q.setProps pr, d, hq2, by simpa using hprop,
            by simpa using hdot, by simpa using hmiss⟩

/-! ## Association-list lemmas (the insertion-ordered JS object) -/

theorem assocGet_assocSet_self {α : Type} (l : List (String × α)) (k : String) (v : α) :
    assocGet (assocSet l k v) k = some v := by
  induction l with
  | nil => simp [assocGet, assocSet]
  | cons h t ih =>
    obtain ⟨k', w⟩ := h
    by_cases hk : k' = k
    · simp [assocGet, assocSet, hk]
    · simp [assocGet, assocSet, hk, ih]

theorem assocGet_assocSet_ne {α : Type} (l : List (String × α)) (k key : String) (v : α)
    (h : k ≠ key) : assocGet (assocSet l k v) key = assocGet l key := by
  induction l with
  | nil => simp [assocGet, assocSet, h]
  | cons hd t ih =>
    obtain ⟨k', w⟩ := hd
    by_cases hk : k' = k
    · subst hk
      simp [assocGet, assocSet, h]
    · simp only [assocSet, if_neg hk]
      by_cases hk2 : k' = key
      · simp [assocGet, hk2]
      · simp [assocGet, hk2, ih]

theorem assocSet_keys {α : Type} (l : List (String × α)) (k : String) (v : α) :
    (assocSet l k v).map Prod.fst =
      if k ∈ l.map Prod.fst then l.map Prod.fst else l.map Prod.fst ++ [k] := by
  induction l with
  | nil => simp [assocSet]
  | cons hd t ih =>
    obtain ⟨k', w⟩ := hd
    by_cases hk : k' = k
    · simp [assocSet, hk]
    · have hk2 : ¬ k = k' := fun h => hk h.symm
      simp [assocSet, hk, ih, hk2]
      by_cases hm : k ∈ t.map Prod.fst
      · simp [hm, hk2]
      · simp [hm, hk2]

/-! ## Grouper lemmas -/

theorem buildGroupsTemplate_keys_aux (groups : List String) :
    ∀ (acc : List (String × List Entry)), (∀ g ∈ groups, g ∉ acc.map Prod.fst) → groups.Nodup →
    (groups.foldl (fun a g => assocSet a g []) acc).map Prod.fst = acc.map Prod.fst ++ groups := by
  induction groups with
  | nil => intro acc _ _; simp
  | cons g rest ih =>
    intro acc hacc hnd
    have hg : g ∉ acc.map Prod.fst := hacc g (List.mem_cons_self g rest)
    have hkeys : (assocSet acc g ([] : List Entry)).map Prod.fst = acc.map Prod.fst ++ [g] := by
      rw [assocSet_keys, if_neg hg]
    have hrest : ∀ g' ∈ rest, g' ∉ (assocSet acc g ([] : List Entry)).map Prod.fst := by
      intro g' hg' hmem
      rw [hkeys] at hmem
      rcases List.mem_append.mp hmem with h1 | h1
      · exact hacc g' (List.mem_cons_of_mem g hg') h1
      · have : g' = g := List.mem_singleton.mp h1
        exact (List.nodup_cons.mp hnd).1 (this ▸ hg')
    calc ((g :: rest).foldl (fun a g => assocSet a g []) acc).map Prod.fst
        = (rest.foldl (fun a g => assocSet a g []) (assocSet acc g [])).map Prod.fst := by
          simp [List.foldl_cons]
      _ = (assocSet acc g ([] : List Entry)).map Prod.fst ++ rest :=
          ih (assocSet acc g []) hrest (List.nodup_cons.mp hnd).2
      _ = acc.map Prod.fst ++ (g :: rest) := by rw [hkeys]; simp

theorem buildGroupsTemplate_keys (groups : List String) (h : groups.Nodup) :
    (buildGroupsTemplate groups).map Prod.fst = groups := by
  have := buildGroupsTemplate_keys_aux groups [] (by simp) h
  simpa [buildGroupsTemplate] using this

theorem foldl_assocSet_get_notmem (groups : List String) :
    ∀ (acc : List (String × List Entry)) (c : String), c ∉ groups →
    assocGet (groups.foldl (fun a g => assocSet a g []) acc) c = assocGet acc c := by
  induction groups with
  | nil => intro acc c _; rfl
  | cons g rest ih =>
    intro acc c hc
    have hcr : c ∉ rest := fun h => hc (List.mem_cons_of_mem g h)
    have hcg : g ≠ c := fun h => hc (h ▸ List.mem_cons_self g rest)
    rw [List.foldl_cons, ih (assocSet acc g []) c hcr, assocGet_assocSet_ne _ _ _ _ hcg]

theorem buildGroupsTemplate_get_mem (groups : List String) :
    ∀ (acc : List (String × List Entry)) (c : String),
    (c ∈ groups ∨ assocGet acc c = some []) →
    assocGet (groups.foldl (fun a g => assocSet a g []) acc) c = some [] := by
  induction groups with
  | nil =>
    intro acc c hc
    rcases hc with hc | hc
    · exact absurd hc (List.not_mem_nil c)
    · exact hc
  | cons g rest ih =>
    intro acc c hc
    rw [List.foldl_cons]
    rcases hc with hc | hc
    · rcases List.mem_cons.mp hc with hc | hc
      · subst hc
        by_cases hcr : c ∈ rest
        · exact ih _ c (Or.inl hcr)
        · exact ih _ c (Or.inr (assocGet_assocSet_self acc c []))
      · exact ih _ c (Or.inl hc)
    · by_cases hg : g = c
      · exact ih _ c (Or.inr (hg ▸ assocGet_assocSet_self acc g []))
      · exact ih _ c (Or.inr (by rw [assocGet_assocSet_ne _ _ _ _ hg]; exact hc))

theorem groupDocs_fold_get (docs : List Entry) :
    ∀ (acc : List (String × List Entry)) (c : String) (l : List Entry),
    assocGet acc c = some l →
    assocGet (docs.foldl groupStep acc) c = some (l ++ docs.filter (fun d => d.category == c)) := by
  induction docs with
  | nil => intro acc c l h; simpa using h
  | cons d rest ih =>
    intro acc c l h
    rw [List.foldl_cons]
    by_cases hc : d.category = c
    · have hstep : assocGet (groupStep acc d) c = some (l ++ [d]) := by
        unfold groupStep
        rw [hc, h]
        simpa using assocGet_assocSet_self acc c (l ++ [d])
      have := ih (groupStep acc d) c (l ++ [d]) hstep
      rw [this]
      have hfilter : (d :: rest).filter (fun d => d.category == c) =
          d :: rest.filter (fun d => d.category == c) := by
        simp [List.filter, hc]
      rw [hfilter]
      simp
    · have hstep : assocGet (groupStep acc d) c = some l := by
        unfold groupStep
        rw [assocGet_assocSet_ne _ _ _ _ hc, h]
      have := ih (groupStep acc d) c l hstep
      rw [this]
      have hbeq : (d.category == c) = false := beq_eq_false_iff_ne.mpr hc
      have hfilter : (d :: rest).filter (fun d => d.category == c) =
          rest.filter (fun d => d.category == c) := by
        simp [List.filter, hbeq]
      rw [hfilter]

theorem groupDocs_fold_get_new (docs : List Entry) :
    ∀ (acc : List (String × List Entry)) (c : String),
    assocGet acc c = none → docs.filter (fun d => d.category == c) ≠ [] →
    assocGet (docs.foldl groupStep acc) c = some (docs.filter (fun d => d.category == c)) := by
  induction docs with
  | nil => intro acc c _ hne; exact absurd rfl hne
  | cons d rest ih =>
    intro acc c h hne
    rw [List.foldl_cons]
    by_cases hc : d.category = c
    · have hstep : assocGet (groupStep acc d) c = some [d] := by
        unfold groupStep
        rw [hc, h]
        simpa using assocGet_assocSet_self acc c [d]
      have := groupDocs_fold_get rest (groupStep acc d) c [d] hstep
      rw [this]
      have hfilter : (d :: rest).filter (fun d => d.category == c) =
          d :: rest.filter (fun d => d.category == c) := by
        simp [List.filter, hc]
      rw [hfilter]
      simp
    · have hstep : assocGet (groupStep acc d) c = none := by
        unfold groupStep
        rw [assocGet_assocSet_ne _ _ _ _ hc, h]
      have hbeq : (d.category == c) = false := beq_eq_false_iff_ne.mpr hc
      have hfilter : (d :: rest).filter (fun d => d.category == c) =
          rest.filter (fun d => d.category == c) := by
        simp [List.filter, hbeq]
      rw [hfilter] at hne ⊢
      exact ih (groupStep acc d) c hstep hne

theorem groupDocs_fold_keys (docs : List Entry) :
    ∀ (acc : List (String × List Entry)),
    ∃ ext, (docs.foldl groupStep acc).map Prod.fst = acc.map Prod.fst ++ ext := by
  induction docs with
  | nil => intro acc; exact ⟨[], by simp⟩
  | cons d rest ih =>
    intro acc
    obtain ⟨ext, hext⟩ := ih (groupStep acc d)
    rw [List.foldl_cons, hext]
    unfold groupStep
    rw [assocSet_keys]
    by_cases hm : d.category ∈ acc.map Prod.fst
    · exact ⟨ext, by simp [hm]⟩
    · exact ⟨[d.category] ++ ext, by simp [hm]⟩

/-! ## Injector lemma -/

theorem injectStaticDocs_appends (sds : List StaticDoc) :
    ∀ (obj obj' : List (String × List Entry)),
    injectStaticDocs sds obj = Except.ok obj' →
    ∀ (c : String) (l : List Entry), assocGet obj c = some l →
    assocGet obj' c =
      some (l ++ (sds.filter (fun s => s.category == c)).map Entry.markdown) := by
  induction sds with
  | nil =>
    intro obj obj' h c l hl
    unfold injectStaticDocs at h
    simp only [Except.ok.injEq] at h
    subst h
    simpa using hl
  | cons sd rest ih =>
    intro obj obj' h c l hl
    unfold injectStaticDocs at h
    rcases hget : assocGet obj sd.category with - | l0
    · rw [hget] at h; exact absurd h (by simp)
    · rw [hget] at h
      by_cases hc : sd.category = c
      · subst hc
        have hl0 : l0 = l := by rw [hget] at hl; exact (Option.some.injEq _ _ ▸ hl :)
        subst hl0
        have hstep : assocGet (assocSet obj sd.category (l0 ++ [Entry.markdown sd])) sd.category =
            some (l0 ++ [Entry.markdown sd]) := assocGet_assocSet_self _ _ _
        have := ih _ _ h sd.category (l0 ++ [Entry.markdown sd]) hstep
        rw [this]
        have hfilter : (sd :: rest).filter (fun s => s.category == sd.category) =
            sd :: rest.filter (fun s => s.category == sd.category) := by
          simp [List.filter]
        rw [hfilter]
        simp
      · have hstep : assocGet (assocSet obj sd.category (l0 ++ [Entry.markdown sd])) c =
            some l := by rw [assocGet_assocSet_ne _ _ _ _ hc]; exact hl
        have := ih _ _ h c l hstep
        rw [this]
        have hbeq : (sd.category == c) = false := beq_eq_false_iff_ne.mpr hc
        have hfilter : (sd :: rest).filter (fun s => s.category == c) =
            rest.filter (fun s => s.category == c) := by
          simp [List.filter, hbeq]
        rw [hfilter]

/-! ## Syntax-string lemmas -/

theorem foldl_append_join (sep : String) :
    ∀ (xs : List String) (a b : String),
    xs.foldl (fun acc y => acc ++ sep ++ y) (a ++ b) =
      a ++ xs.foldl (fun acc y => acc ++ sep ++ y) b := by
  intro xs
  induction xs with
  | nil => intro a b; rfl
  | cons y ys ih =>
    intro a b
    simp only [List.foldl_cons]
    rw [String.append_assoc (a ++ b) sep y, String.append_assoc a b (sep ++ y),
      ← String.append_assoc b sep y, ih a (b ++ sep ++ y)]

theorem joinSep_eq_specCommaJoin : ∀ (l : List String), joinSep ", " l = specCommaJoin l
  | [] => rfl
  | [_] => rfl
  | x :: y :: xs => by
    have ih := joinSep_eq_specCommaJoin (y :: xs)
    show (y :: xs).foldl (fun acc z => acc ++ ", " ++ z) x = specCommaJoin (x :: y :: xs)
    simp only [List.foldl_cons]
    have : x ++ ", " ++ y = (x ++ ", ") ++ y := rfl
    rw [this, foldl_append_join ", " xs (x ++ ", ") y]
    show (x ++ ", ") ++ joinSep ", " (y :: xs) = specCommaJoin (x :: y :: xs)
    rw [ih]
    rfl

/-! ## Assembler lemmas -/

theorem assembleDoc_params_none (d : RawDoc) (h : d.params = none) :
    assembleDoc d = Except.error () := by
  unfold assembleDoc
  rw [h]
  rfl

theorem assembleAll_error_of_mem (d : RawDoc) (hd : assembleDoc d = Except.error ()) :
    ∀ (raws : List RawDoc), d ∈ raws → assembleAll raws = Except.error () := by
  intro raws
  induction raws with
  | nil => intro h; exact absurd h (List.not_mem_nil d)
  | cons r rest ih =>
    intro hmem
    unfold assembleAll
    rcases List.mem_cons.mp hmem with h1 | h1
    · subst h1
      rw [hd]
    · rcases hr : assembleDoc r with e | entry
      · rfl
      · rw [ih h1]
        rfl

/-! ## Pipeline lemma: a stream error aborts the extraction fold -/

theorem extractAll_error (parse : String → ParseResult) :
    ∀ (files : List String), (∃ f ∈ files, ∃ m, parse f = ParseResult.err m) →
    extractAll parse files = Except.error () := by
  intro files
  induction files with
  | nil => rintro ⟨f, hf, -⟩; exact absurd hf (List.not_mem_nil f)
  | cons f rest ih =>
    rintro ⟨f0, hf0, m, hm⟩
    unfold extractAll
    rcases hp : parse f with m' | docs
    · rfl
    · rcases List.mem_cons.mp hf0 with h1 | h1
      · subst h1
        rw [hp] at hm
        exact absurd hm (by simp)
      · rw [ih ⟨f0, h1, m, hm⟩]
        rfl

/-! ## Claim C1 -/

/--
Claim C1, counterexample.  The claim says an entry whose category is not
among the configured categories makes the Grouper fail at an absent-key
lookup.  It does not: `(acc[doc.category] = acc[doc.category] || []).push(doc)`
guards the absent key with `|| []`, so grouping `sampleEntry` (category
`"Misc"`) under the sole configured category `"Common Helpers"` succeeds
and produces an output mapping, with the unconfigured category appended as
a new key.
-/
theorem C1_counterexample :
    groupDocs [sampleEntry] ["Common Helpers"] =
      [("Common Helpers", []), ("Misc", [sampleEntry])] := by rfl

/--
Claim C1, amended.  An entry whose category is not among the configured
category names does not cause a runtime failure: `groupDocs` is total, and
every input entry appears in the output mapping under its own category key
(the key being created, appended after the configured ones, when it was
not configured).
-/
theorem C1_unconfigured_category_still_grouped (docs : List Entry) (groups : List String)
    (d : Entry) (hd : d ∈ docs) :
    ∃ l, assocGet (groupDocs docs groups) d.category = some l ∧ d ∈ l := by
  have hdf : d ∈ docs.filter (fun e => e.category == d.category) :=
    List.mem_filter.mpr ⟨hd, by simp⟩
  have hne : docs.filter (fun e => e.category == d.category) ≠ [] := List.ne_nil_of_mem hdf
  unfold groupDocs
  rcases h0 : assocGet (buildGroupsTemplate groups) d.category with - | l0
  · exact ⟨_, groupDocs_fold_get_new docs _ d.category h0 hne, hdf⟩
  · exact ⟨l0 ++ docs.filter (fun e => e.category == d.category),
      groupDocs_fold_get docs _ d.category l0 h0, List.mem_append_right l0 hdf⟩

/-- Claim C1, witness for the amended theorem at a concrete input. -/
theorem C1_witness :
    sampleEntry ∈ [sampleEntry] ∧
    ∃ l, assocGet (groupDocs [sampleEntry] ["Common Helpers"]) sampleEntry.category = some l ∧
      sampleEntry ∈ l :=
  ⟨List.mem_singleton_self sampleEntry,
    C1_unconfigured_category_still_grouped [sampleEntry] ["Common Helpers"] sampleEntry
      (List.mem_singleton_self sampleEntry)⟩

/-! ## Claim C3 -/

/--
Claim C3: for a null or absent parameter list input, `paramsToTree`
returns null — and not an empty list — distinguishing the "no parameters"
signal from a list with zero entries.
-/
theorem C3_null_params_null_tree :
    paramsToTree none = Except.ok none ∧ paramsToTree none ≠ Except.ok (some []) :=
  ⟨rfl, by simp [paramsToTree]⟩

/-! ## Claim C4 -/

/--
Claim C4: for every raw record whose `params` field is null/absent,
assembling the record fails — the assembler passes the null parameter tree
to `generateSyntaxString`, whose unconditional `args.map` throws — and so
any record list containing such a record makes the whole assembly pass
throw instead of producing a `DocEntry`.
-/
theorem C4_null_params_throws (d : RawDoc) (h : d.params = none) :
    assembleDoc d = Except.error () ∧
    ∀ raws : List RawDoc, d ∈ raws → assembleAll raws = Except.error () :=
  ⟨assembleDoc_params_none d h,
    assembleAll_error_of_mem d (assembleDoc_params_none d h)⟩

/-- Claim C4, witness at a concrete parameterless record. -/
theorem C4_witness :
    sampleRawNoParams.params = none ∧
    assembleDoc sampleRawNoParams = Except.error () ∧
    assembleAll [sampleRawNoParams] = Except.error () :=
  ⟨rfl, (C4_null_params_throws sampleRawNoParams rfl).1,
    (C4_null_params_throws sampleRawNoParams rfl).2 [sampleRawNoParams]
      (List.mem_singleton_self sampleRawNoParams)⟩

/-! ## Claim C5 -/

/--
Claim C5: for every entry list and every (duplicate-free) configured
category list, the Grouper's output mapping contains every configured
category as a key, in the configured order (the configured categories form
a prefix of the key list), even when zero entries exist for a category;
and within each configured category the entries are exactly the input
entries of that category in input order.
-/
theorem C5_grouper_keys_and_order (docs : List Entry) (groups : List String)
    (h : groups.Nodup) :
    (∃ ext, (groupDocs docs groups).map Prod.fst = groups ++ ext) ∧
    ∀ c ∈ groups, assocGet (groupDocs docs groups) c =
      some (docs.filter (fun d => d.category == c)) := by
  constructor
  · obtain ⟨ext, hext⟩ := groupDocs_fold_keys docs (buildGroupsTemplate groups)
    refine ⟨ext, ?_⟩
    unfold groupDocs
    rw [hext, buildGroupsTemplate_keys groups h]
  · intro c hc
    have h0 : assocGet (buildGroupsTemplate groups) c = some [] :=
      buildGroupsTemplate_get_mem groups [] c (Or.inl hc)
    have := groupDocs_fold_get docs (buildGroupsTemplate groups) c [] h0
    unfold groupDocs
    simpa using this

/-- Claim C5, witness at a concrete entry list and category list. -/
theorem C5_witness :
    (["Common Helpers", "Misc"] : List String).Nodup ∧
    ((∃ ext, (groupDocs [sampleEntry] ["Common Helpers", "Misc"]).map Prod.fst =
        ["Common Helpers", "Misc"] ++ ext) ∧
     ∀ c ∈ (["Common Helpers", "Misc"] : List String),
       assocGet (groupDocs [sampleEntry] ["Common Helpers", "Misc"]) c =
         some ([sampleEntry].filter (fun d => d.category == c))) :=
  ⟨by decide, C5_grouper_keys_and_order [sampleEntry] ["Common Helpers", "Misc"] (by decide)⟩

/-! ## Claim C6 -/

/--
Claim C6: for every grouped mapping and every list of static documents,
when injection succeeds, each category's list is its original
(source-derived) list with the static documents of that category appended
after it, in descriptor order — so every static document appears after all
source-derived entries of its category, regardless of the descriptor
list's ordering.
-/
theorem C6_statics_after_sources (sds : List StaticDoc) (obj obj' : List (String × List Entry))
    (h : injectStaticDocs sds obj = Except.ok obj') (c : String) (l : List Entry)
    (hl : assocGet obj c = some l) :
    assocGet obj' c = some (l ++ (sds.filter (fun s => s.category == c)).map Entry.markdown) :=
  injectStaticDocs_appends sds obj obj' h c l hl

/-- Claim C6, witness at a concrete mapping and static document. -/
theorem C6_witness :
    injectStaticDocs [sampleStatic] [("Misc", [sampleEntry])] =
      Except.ok [("Misc", [sampleEntry, Entry.markdown sampleStatic])] ∧
    assocGet [("Misc", [sampleEntry])] "Misc" = some [sampleEntry] ∧
    assocGet [("Misc", [sampleEntry, Entry.markdown sampleStatic])] "Misc" =
      some ([sampleEntry] ++
        ([sampleStatic].filter (fun s => s.category == "Misc")).map Entry.markdown) :=
  ⟨rfl, rfl,
    C6_statics_after_sources [sampleStatic] [("Misc", [sampleEntry])]
      [("Misc", [sampleEntry, Entry.markdown sampleStatic])] rfl "Misc" [sampleEntry] rfl⟩

/-! ## Claim C7 -/

/--
Claim C7: for every entry name and every non-null top-level parameter
tree, the generated syntax string is the entry name followed by a
parenthesized, comma-joined list of the top-level parameters' names, each
optional one wrapped in square brackets, with no recursion into `props`
(the spec-side `specSignature` is defined from the spec's words and never
inspects `props`).
-/
theorem C7_signature_refines_spec (name : String) (ps : List Param) :
    generateSyntaxString name (some ps) = Except.ok (specSignature name ps) := by
  simp only [generateSyntaxString, specSignature, joinSep_eq_specCommaJoin]

/-! ## Claim C9 -/

/--
Claim C9: if the parsing engine emits a stream error for any source file,
the process exits with status 1 and the Writer is never reached — no
output object is written.
-/
theorem C9_stream_error_exits (parse : String → ParseResult) (files : List String)
    (groups : List String) (readFile : String → Except Unit String)
    (descs : List StaticDocDesc)
    (h : ∃ f ∈ files, ∃ m, parse f = ParseResult.err m) :
    runPipeline parse files groups readFile descs = Outcome.exited 1 ∧
    ∀ obj, runPipeline parse files groups readFile descs ≠ Outcome.wrote obj := by
  have hext := extractAll_error parse files h
  constructor
  · unfold runPipeline
    rw [hext]
  · intro obj hobj
    unfold runPipeline at hobj
    rw [hext] at hobj
    exact Outcome.noConfusion hobj

/-- Claim C9, witness at a concrete erroring parse run. -/
theorem C9_witness :
    (∃ f ∈ ["src/add_days/index.js"],
      ∃ m, (fun (_ : String) => ParseResult.err "stream error") f = ParseResult.err m) ∧
    runPipeline (fun _ => ParseResult.err "stream error") ["src/add_days/index.js"] []
      (fun _ => Except.ok "") [] = Outcome.exited 1 :=
  ⟨⟨"src/add_days/index.js", List.mem_singleton_self _, "stream error", rfl⟩,
    (C9_stream_error_exits (fun _ => ParseResult.err "stream error")
      ["src/add_days/index.js"] [] (fun _ => Except.ok "") []
      ⟨"src/add_days/index.js", List.mem_singleton_self _, "stream error", rfl⟩).1⟩

/-! ## Claim C8 -/

/--
Claim C8: running the Parameter Tree Builder on its own (non-null) output
produces that output again — after one pass every surviving top-level
parameter has a dot-free name and an unset `isProperty` flag, so the
second pass renames nothing, reparents nothing, and filters nothing.
-/
theorem C8_paramsToTree_idempotent (ps out : List Param)
    (h : paramsToTree (some ps) = Except.ok (some out)) :
    paramsToTree (some out) = Except.ok (some out) := by
  simp only [paramsToTree] at h ⊢
  rcases hrun : runTree ps with e | arr'
  · rw [hrun] at h
    exact absurd h (by simp [Except.map])
  · rw [hrun] at h
    simp only [Except.map] at h
    have hout : arr'.filter (fun p => !p.isProperty) = out :=
      (Option.some.injEq _ _).mp ((Except.ok.injEq _ _).mp h)
    have hgoodAll : ∀ p ∈ out, p.isProperty = false ∧ dotIndex p.name = none := by
      intro p hp
      rw [← hout] at hp
      have hmf := List.mem_filter.mp hp
      have hprop : p.isProperty = false := by simpa using hmf.2
      exact ⟨hprop, runTree_good hrun p hmf.1 hprop⟩
    have hid : runTree out = Except.ok out := by
      unfold runTree
      exact treeLoop_id _ out (fun p hp => (hgoodAll p hp).2) _
    rw [hid]
    simp only [Except.map, Except.ok.injEq, Option.some.injEq]
    exact List.filter_eq_self.mpr (fun p hp => by simp [(hgoodAll p hp).1])

/-- Claim C8, witness: the `options`/`options.year` pair, whose tree is a
fixed point of the builder. -/
theorem C8_witness :
    paramsToTree (some [pOptions, pYear]) = Except.ok (some [pOptionsOut]) ∧
    paramsToTree (some [pOptionsOut]) = Except.ok (some [pOptionsOut]) :=
  ⟨rfl, C8_paramsToTree_idempotent [pOptions, pYear] [pOptionsOut] rfl⟩

/-! ## Claim C10 -/

/--
Claim C10, counterexample.  The claim quantifies over every list containing
a dotted-name parameter with no parent in the list, but a dotted parameter
that is already marked `isProperty` is skipped by the `!isProperty` guard
and then filtered out: `paramsToTree` returns a tree (the empty top-level
list) instead of throwing.
-/
theorem C10_counterexample :
    paramsToTree (some [orphanMarked]) = Except.ok (some []) := by rfl

/--
Claim C10, amended: for every parameter list containing a dotted-name
parameter that is not already marked as a property and whose name part
before the first dot is not the (original) name of any parameter in the
list, `paramsToTree` throws — the `paramIndices` lookup yields `undefined`
and the unguarded `parent.props` access faults — instead of returning a
tree.
-/
theorem C10_missing_parent_throws (ps : List Param) (p : Param) (hp : p ∈ ps)
    (hprop : p.isProperty = false) (d : Nat) (hdot : dotIndex p.name = some d)
    (hmiss : strTake p.name d ∉ ps.map Param.name) :
    paramsToTree (some ps) = Except.error () := by
  have hnone : lastIndexOf (ps.map Param.name) (strTake p.name d) = none :=
    lastIndexOf_eq_none _ _ hmiss
  obtain ⟨k, hk⟩ := List.mem_iff_get?.mp hp
  have hklt : k < ps.length := by
    rcases Nat.lt_or_ge k ps.length with hlt | hge
    · exact hlt
    · rw [List.get?_eq_none.mpr hge] at hk
      exact absurd hk (by simp)
  have hloop := treeLoop_error (ps.map Param.name) (List.range ps.length) ps
    ⟨k, List.mem_range.mpr hklt, p, d, hk, hprop, hdot, hnone⟩
  simp only [paramsToTree, runTree]
  rw [hloop]
  rfl

/-! ## Claim C2 -/

/--
Claim C2: for a flat parameter list holding a top-level parameter (name
`pn`, dot-free, not a property) followed by a one-level dotted parameter
`pn ++ "." ++ suf` referring to it, `paramsToTree` returns a top-level
list that omits the dotted parameter and attaches it under the parent's
`props` list (appended after any existing `props` children), preserving
every field of the dotted parameter (`optional`, `props`, remaining
metadata) except its name — shortened to the part after the first dot —
and its `isProperty` flag, now `true`.  All field values are universally
quantified.
-/
theorem C2_dotted_param_reparented (pn suf pd cd : String) (po co : Bool)
    (ppr cpr : Option (List Param)) (hdot : dotIndex pn = none) :
    paramsToTree (some [Param.mk pn po false ppr pd,
      Param.mk (pn ++ "." ++ suf) co false cpr cd]) =
    Except.ok (some [Param.mk pn po false
      (some (ppr.getD [] ++ [Param.mk suf co true cpr cd])) pd]) := by
  have hne := ne_append_dot pn suf
  have hdap := dotIndex_append pn suf hdot
  have htake := strTake_append pn suf
  have hdrop := strDrop_append pn suf
  have hli := lastIndexOf_pair pn (pn ++ "." ++ suf) hne
  have hstep0 : treeStep [pn, pn ++ "." ++ suf]
      [Param.mk pn po false ppr pd, Param.mk (pn ++ "." ++ suf) co false cpr cd] 0 =
      Except.ok [Param.mk pn po false ppr pd,
        Param.mk (pn ++ "." ++ suf) co false cpr cd] := by
    have hg : ([Param.mk pn po false ppr pd,
        Param.mk (pn ++ "." ++ suf) co false cpr cd] : List Param).get? 0 =
        some (Param.mk pn po false ppr pd) := rfl
    unfold treeStep
    simp only [hg, Param.name_mk, Param.isProperty_mk, hdot]
  have hstep1 : treeStep [pn, pn ++ "." ++ suf]
      [Param.mk pn po false ppr pd, Param.mk (pn ++ "." ++ suf) co false cpr cd] 1 =
      Except.ok [Param.mk pn po false
          (some (ppr.getD [] ++ [Param.mk suf co true cpr cd])) pd,
        Param.mk suf co true cpr cd] := by
    have hg : ([Param.mk pn po false ppr pd,
        Param.mk (pn ++ "." ++ suf) co false cpr cd] : List Param).get? 1 =
        some (Param.mk (pn ++ "." ++ suf) co false cpr cd) := rfl
    unfold treeStep
    simp only [hg, Param.name_mk, Param.isProperty_mk, hdap, Param.setNameProp, htake, hli,
      hdrop, List.set, List.get?, Param.getPropsD, Param.props_mk, Param.setProps]
  have hloop : treeLoop [pn, pn ++ "." ++ suf] [0, 1]
      [Param.mk pn po false ppr pd, Param.mk (pn ++ "." ++ suf) co false cpr cd] =
      Except.ok [Param.mk pn po false
          (some (ppr.getD [] ++ [Param.mk suf co true cpr cd])) pd,
        Param.mk suf co true cpr cd] := by
    unfold treeLoop
    rw [hstep0]
    show treeLoop [pn, pn ++ "." ++ suf] [1]
        [Param.mk pn po false ppr pd, Param.mk (pn ++ "." ++ suf) co false cpr cd] = _
    unfold treeLoop
    rw [hstep1]
    rfl
  simp only [paramsToTree, runTree]
  have hnames : ([Param.mk pn po false ppr pd,
      Param.mk (pn ++ "." ++ suf) co false cpr cd].map Param.name) =
      [pn, pn ++ "." ++ suf] := by simp
  have hrange : List.range ([Param.mk pn po false ppr pd,
      Param.mk (pn ++ "." ++ suf) co false cpr cd] : List Param).length = [0, 1] := rfl
  rw [hnames, hrange, hloop]
  simp [Except.map, List.filter]

/-- Claim C2, witness: the `options`/`options.year` pair of the
specification. -/
theorem C2_witness :
    dotIndex "options" = none ∧
    paramsToTree (some [Param.mk "options" true false none "the options",
      Param.mk ("options" ++ "." ++ "year") true false none "the year"]) =
    Except.ok (some [Param.mk "options" true false
      (some ((none : Option (List Param)).getD [] ++
        [Param.mk "year" true true none "the year"])) "the options"]) :=
  ⟨rfl, C2_dotted_param_reparented "options" "year" "the options" "the year" true true
    none none rfl⟩

/-- Claim C10, witness: a single dotted parameter (`options.year`) with no
`options` parameter beside it. -/
theorem C10_witness :
    orphan ∈ [orphan] ∧ orphan.isProperty = false ∧
    dotIndex orphan.name = some 7 ∧
    strTake orphan.name 7 ∉ [orphan].map Param.name ∧
    paramsToTree (some [orphan]) = Except.error () :=
  ⟨List.mem_singleton_self orphan, rfl, rfl, by decide,
    C10_missing_parent_throws [orphan] orphan (List.mem_singleton_self orphan) rfl 7 rfl
      (by decide)⟩

end GenerateDocs
